import Mathlib

set_option maxHeartbeats 1000000

/-!
# Verification of the alarm/note configuration editor

A shallow embedding of the projection/reconciliation core of the editor:
the `specialEffectLibrary` / `specialEffectTriggers` arrays, the type-6
subsequence index maps, the `triggerAtSecondOfDay` on/off codec, the
alarm view derivation (`_load_data`), mutation operations
(`_delete_alarm`, `save_alarm`, `_save_alarms`) and the note store.

Python dicts are embedded as structures whose optional fields are
`Option`-valued (`none` = key absent); fields the core never interprets
are collected in an opaque `extra` key-value bag, preserved verbatim.
`effectIndices` is embedded as a flat list of integers: the source
tolerates a one-level nested list on read (`effect_indices[0][0]`) but
only ever writes flat single-element lists.  Python `int(s)` and
`str.split` are embedded as the structurally recursive `pyInt?` and
`pySplit` below.
-/

/-- One entry of `specialEffectLibrary`: the fields the core reads
(`type`, `text`, `audioFileName`, `loop`) plus a passthrough bag. -/
structure Effect where
  type : Option Int
  text : Option String
  audioFileName : Option String
  loop : Option Bool
  extra : List (String × String)
deriving DecidableEq

/-- One entry of `specialEffectTriggers`. -/
structure Trigger where
  triggerAtSecondOfDay : Option String
  effectIndices : Option (List Int)
  extra : List (String × String)
deriving DecidableEq

/-- One entry of `meshes`; the core only reads `specialEffectTriggers`. -/
structure Mesh where
  specialEffectTriggers : List Trigger
deriving DecidableEq

/-- One entry of `notes`: the fields the note core reads, plus passthrough. -/
structure Note where
  visible : Option Bool
  text : String
  extra : List (String × String)
deriving DecidableEq

/-- The parsed `config.json` document held by `ConfigManager.config_data`. -/
structure Config where
  specialEffectLibrary : List Effect
  meshes : List Mesh
  notes : List Note
deriving DecidableEq

/-- `effect.get("type") == 6`. -/
def isType6 (e : Effect) : Bool := e.type == some 6

/-- `ConfigManager.get_type6_effects` on a library list:
`[e for e in effects if e.get("type") == 6]`. -/
def type6Effects (effects : List Effect) : List Effect := effects.filter isType6

/-- `ConfigManager.get_type6_effects`. -/
def get_type6_effects (c : Config) : List Effect := type6Effects c.specialEffectLibrary

/-- `[i for i, e in enumerate(effects) if e.get("type") == 6]` — the forward
index map `type6_to_actual_index` as the list whose `k`-th element is the
absolute library position of the `k`-th type-6 entry. -/
def type6Positions (effects : List Effect) : List Nat :=
  (effects.enum.filter (fun p => isType6 p.2)).map Prod.fst

/-- `type6_to_actual_index.get(k, -1)` (dict built in `_save_alarms`). -/
def type6ToActual (effects : List Effect) (k : Int) : Int :=
  if k < 0 then -1 else
    match (type6Positions effects)[k.toNat]? with
    | some p => (p : Int)
    | none => -1

/-- `actual_to_type6_index.get(a, -1)` (inverse dict built in `_load_data`;
the forward dict has distinct values, so inversion is first-index lookup). -/
def actualToType6 (effects : List Effect) (a : Int) : Int :=
  match (type6Positions effects).findIdx? (fun p : Nat => (p : Int) == a) with
  | some k => (k : Int)
  | none => -1

/-- `"triggerAtSecondOfDay" in t`. -/
def hasTime (t : Trigger) : Bool := t.triggerAtSecondOfDay.isSome

/-- `ConfigManager.get_time_triggers`. -/
def get_time_triggers (c : Config) : List Trigger :=
  match c.meshes with
  | [] => []
  | m :: _ => m.specialEffectTriggers.filter hasTime

/-- `ConfigManager.set_time_triggers`: non-time triggers first (original
order), then the supplied triggers. -/
def set_time_triggers (c : Config) (triggers : List Trigger) : Config :=
  match c.meshes with
  | [] => c
  | m :: rest =>
    let non_time := m.specialEffectTriggers.filter (fun t => !hasTime t)
    { c with meshes := { m with specialEffectTriggers := non_time ++ triggers } :: rest }

/-- `ConfigManager.set_type6_effect` (the in-range index is looked up with a
default that the bounds guard makes unreachable). -/
def set_type6_effect (c : Config) (index : Int) (effect : Effect) : Config :=
  let effects := c.specialEffectLibrary
  let t6pos := type6Positions effects
  if 0 ≤ index ∧ index < (t6pos.length : Int) then
    { c with specialEffectLibrary := effects.set (t6pos.getD index.toNat 0) effect }
  else c

/-- `ConfigManager.add_type6_effect`: append, return the new absolute index. -/
def add_type6_effect (c : Config) (effect : Effect) : Config × Int :=
  let lib := c.specialEffectLibrary ++ [effect]
  ({ c with specialEffectLibrary := lib }, (lib.length : Int) - 1)

/-- `ConfigManager.remove_type6_effect`. -/
def remove_type6_effect (c : Config) (index : Int) : Config :=
  let effects := c.specialEffectLibrary
  let t6pos := type6Positions effects
  if 0 ≤ index ∧ index < (t6pos.length : Int) then
    { c with specialEffectLibrary := effects.eraseIdx (t6pos.getD index.toNat 0) }
  else c

/-- Value of one decimal digit run: `none` as soon as a non-digit appears. -/
def digitsVal (acc : Nat) : List Char → Option Nat
  | [] => some acc
  | c :: cs => if c.isDigit then digitsVal (acc * 10 + (c.toNat - '0'.toNat)) cs else none

/-- A nonempty decimal digit run. -/
def parseDigits : List Char → Option Nat
  | [] => none
  | c :: cs => digitsVal 0 (c :: cs)

/-- Optional sign followed by a nonempty digit run. -/
def pyIntCore : List Char → Option Int
  | [] => none
  | c :: cs =>
    if c == '-' then (parseDigits cs).map (fun n => -(n : Int))
    else if c == '+' then (parseDigits cs).map (fun n => (n : Int))
    else (parseDigits (c :: cs)).map (fun n => (n : Int))

/-- Python `int(s)` (`ValueError` = `none`): optional surrounding
whitespace, an optional sign, then a nonempty run of decimal digits.
Python's underscore digit grouping and non-ASCII digits are not modeled:
the strings this program reads, writes and receives never contain them. -/
def pyInt? (s : String) : Option Int :=
  pyIntCore (((s.data.dropWhile Char.isWhitespace).reverse.dropWhile Char.isWhitespace).reverse)

/-- `str.split(sep)` for a one-character separator, on the char list. -/
def splitAux (c : Char) : List Char → List Char → List (List Char)
  | [], acc => [acc.reverse]
  | x :: xs, acc => if x == c then acc.reverse :: splitAux c xs [] else splitAux c xs (x :: acc)

/-- Python `s.split(c)`. -/
def pySplit (s : String) (c : Char) : List String :=
  (splitAux c s.data []).map List.asString

/-- The raw-field decode step of `AlarmInterface._load_data`:
`int(...)` with the `except` fallback 0, then the ≥ 100000 disabled test. -/
def decodeTime (s : String) : Int × Bool :=
  let seconds := (pyInt? s).getD 0
  if seconds ≥ 100000 then (seconds - 100000, false) else (seconds, true)

/-- The encode step of `save_alarm` / `_save_alarms`:
`str(seconds if enabled else seconds + 100000)`. -/
def encodeTime (seconds : Int) (enabled : Bool) : String :=
  toString (if enabled then seconds else seconds + 100000)

/-- One alarm view-record as built by `AlarmInterface._load_data`. -/
structure Alarm where
  seconds : Int
  enabled : Bool
  name : String
  audio_file : String
  loop : Bool
  type6_index : Int
  actual_index : Int
  trigger : Trigger
  trigger_index : Nat
deriving DecidableEq

/-- The body of the `for trigger_idx, trigger in enumerate(time_triggers)`
loop of `_load_data`: `none` when the trigger is skipped. -/
def mkAlarm? (effects : List Effect) (trigger_idx : Nat) (t : Trigger) : Option Alarm :=
  let sec_en := decodeTime (t.triggerAtSecondOfDay.getD "0")
  match t.effectIndices.getD [] with
  | [] => none
  | a :: _ =>
    let t6 := actualToType6 effects a
    if 0 ≤ t6 ∧ t6 < ((type6Effects effects).length : Int) then
      match (type6Effects effects)[t6.toNat]? with
      | some e => some
          { seconds := sec_en.1, enabled := sec_en.2,
            name := e.text.getD "", audio_file := e.audioFileName.getD "",
            loop := e.loop.getD false, type6_index := t6, actual_index := a,
            trigger := t, trigger_index := trigger_idx }
      | none => none
    else none

/-- `AlarmInterface._load_data` restricted to its output list `self.alarms`. -/
def loadAlarms (effects : List Effect) (time_triggers : List Trigger) : List Alarm :=
  time_triggers.enum.filterMap (fun p => mkAlarm? effects p.1 p.2)

/-- `self.alarms` after `_load_data` on a config. -/
def loadFromConfig (c : Config) : List Alarm :=
  loadAlarms c.specialEffectLibrary (get_time_triggers c)

/-- The match test of `_remove_time_trigger`: equality of the
`triggerAtSecondOfDay` and `effectIndices` fields (`dict.get`, no default). -/
def matchesTrigger (tt t : Trigger) : Bool :=
  t.triggerAtSecondOfDay == tt.triggerAtSecondOfDay && t.effectIndices == tt.effectIndices

/-- The `for i, trigger in enumerate(triggers): ... pop(i); break` loop:
remove the first trigger matching `tt`, keep the rest. -/
def removeFirstMatch (tt : Trigger) : List Trigger → List Trigger
  | [] => []
  | t :: ts => if matchesTrigger tt t then ts else t :: removeFirstMatch tt ts

/-- `AlarmInterface._remove_time_trigger`. -/
def remove_time_trigger (c : Config) (trigger_index : Nat) : Config :=
  match c.meshes with
  | [] => c
  | m :: rest =>
    let triggers := m.specialEffectTriggers
    let time_triggers := triggers.filter hasTime
    match time_triggers[trigger_index]? with
    | some tt => { c with meshes := { m with specialEffectTriggers := removeFirstMatch tt triggers } :: rest }
    | none => c

/-- `AlarmInterface._delete_alarm` on a selected index: remove the trigger
first, then the type-6 library entry (the final `_load_data` re-derives the
view, which the theorems apply explicitly via `loadFromConfig`). -/
def deleteAlarm (c : Config) (alarms : List Alarm) (i : Nat) : Config :=
  match alarms[i]? with
  | none => c
  | some alarm =>
    let c1 := remove_time_trigger c alarm.trigger_index
    remove_type6_effect c1 alarm.type6_index

/-- The body of the `for alarm in self.alarms` loop of `_save_alarms`:
`none` when the alarm is silently dropped. -/
def persistAlarm (effects : List Effect) (alarm : Alarm) : Option Trigger :=
  let seconds := if alarm.enabled then alarm.seconds else alarm.seconds + 100000
  let actual_index := type6ToActual effects alarm.type6_index
  if actual_index ≥ 0 then
    some { alarm.trigger with
           triggerAtSecondOfDay := some (toString seconds),
           effectIndices := some [actual_index] }
  else none

/-- The trigger list built by `AlarmInterface._save_alarms`. -/
def saveAlarms (effects : List Effect) (alarms : List Alarm) : List Trigger :=
  alarms.filterMap (persistAlarm effects)

/-- `_save_alarms` followed by `set_time_triggers`. -/
def saveToConfig (c : Config) (alarms : List Alarm) : Config :=
  set_time_triggers c (saveAlarms c.specialEffectLibrary alarms)

/-- `utils.time_to_seconds`. -/
def time_to_seconds (time_str : String) : Int :=
  match pySplit time_str ':' with
  | [hs, ms] =>
    match pyInt? hs, pyInt? ms with
    | some hours, some minutes =>
      if 0 ≤ hours ∧ hours < 24 ∧ 0 ≤ minutes ∧ minutes < 60 then
        hours * 3600 + minutes * 60
      else -1
    | _, _ => -1
  | _ => -1

/-- The mutable state of an `AlarmInterface` session. -/
structure AlarmState where
  config : Config
  alarms : List Alarm
  type6_effects : List Effect
deriving DecidableEq

/-- `_load_data`: derive the view and the type-6 cache from the document. -/
def loadState (c : Config) : AlarmState :=
  { config := c, alarms := loadFromConfig c, type6_effects := get_type6_effects c }

/-- The default new-alarm library entry of `save_alarm` (visual fields
are passthrough strings in the `extra` bag). -/
def defaultNewEffect (name : String) : Effect :=
  { type := some 6, text := some name, audioFileName := none, loop := none,
    extra := [("image1FileName", "dhk.png"), ("initialScale", "0.5"),
              ("finalScale", "1"), ("initialRotation", "90"),
              ("finalRotation", "0"), ("alignLeftPercent", "0.52"),
              ("alignRightPercent", "-1"), ("verticalFromBottomPercent", "85"),
              ("scaleDuration", "500"), ("fadeOutDuration", "-1")] }

/-- The `save_alarm` closure of `AlarmInterface._edit_alarm`: validate the
time string, then either update alarm `index ≥ 0` or (index `-1`) add a new
alarm.  Out-of-range cached indices (unreachable through the UI) leave the
state unchanged. -/
def saveAlarmEdit (s : AlarmState) (index : Int) (time_str name audio : String)
    (enabled loop_input : Bool) : AlarmState :=
  let seconds := time_to_seconds time_str
  if seconds < 0 then s
  else if 0 ≤ index then
    match s.alarms[index.toNat]? with
    | none => s
    | some old_alarm =>
      let type6_index := old_alarm.type6_index
      let actual_index := old_alarm.actual_index
      match s.type6_effects[type6_index.toNat]? with
      | none => s
      | some old_effect =>
        let effect_data0 := { old_effect with text := some name }
        let effect_data1 :=
          if audio ≠ "" then { effect_data0 with audioFileName := some audio }
          else { effect_data0 with audioFileName := none }
        let effect_data :=
          if loop_input then { effect_data1 with loop := some true }
          else { effect_data1 with loop := none }
        let config1 := set_type6_effect s.config type6_index effect_data
        let trigger := { old_alarm.trigger with
                         triggerAtSecondOfDay := some (encodeTime seconds enabled),
                         effectIndices := some [actual_index] }
        let alarm_data : Alarm :=
          { seconds := seconds, enabled := enabled, name := name,
            audio_file := audio, loop := loop_input,
            type6_index := type6_index, actual_index := actual_index,
            trigger := trigger, trigger_index := old_alarm.trigger_index }
        { config := config1, alarms := s.alarms.set index.toNat alarm_data,
          type6_effects := s.type6_effects }
  else
    let effect_data0 := defaultNewEffect name
    let effect_data1 :=
      if audio ≠ "" then { effect_data0 with audioFileName := some audio }
      else effect_data0
    let effect_data :=
      if loop_input then { effect_data1 with loop := some true }
      else effect_data1
    let ca := add_type6_effect s.config effect_data
    let old_alarm_count := s.alarms.length
    let s1 := loadState ca.1
    match (type6Positions ca.1.specialEffectLibrary).findIdx? (fun p => (p : Int) == ca.2) with
    | some type6_index =>
      let trigger : Trigger :=
        { triggerAtSecondOfDay := some (encodeTime seconds enabled),
          effectIndices := some [ca.2], extra := [] }
      let alarm_data : Alarm :=
        { seconds := seconds, enabled := enabled, name := name,
          audio_file := audio, loop := loop_input,
          type6_index := (type6_index : Int), actual_index := ca.2,
          trigger := trigger, trigger_index := old_alarm_count }
      { s1 with alarms := s1.alarms ++ [alarm_data] }
    | none => s1

/-- `NoteInterface._load_data` default: `if "visible" not in note: note["visible"] = True`. -/
def ensureVisible (n : Note) : Note :=
  if n.visible = none then { n with visible := some true } else n

/-- A note-editing session: the persisted file, the in-memory document
store copy, and the interface's working list (which aliases the document
store copy in the source). -/
structure NoteSession where
  stored : List Note
  config : List Note
  view : List Note
deriving DecidableEq

/-- Opening a session: `load_config` reads the file, `get_notes` hands the
interface the same (aliased) list. -/
def noteOpen (file : List Note) : NoteSession :=
  { stored := file, config := file, view := file }

/-- `NoteInterface._load_data`: apply the `visible` default in place; the
in-memory document sees the mutation, the persisted file does not. -/
def noteLoadData (s : NoteSession) : NoteSession :=
  let notes := s.config.map ensureVisible
  { s with config := notes, view := notes }

/-- `NoteInterface._save_notes`: `set_notes` then `save_config`. -/
def noteSave (s : NoteSession) : NoteSession :=
  { s with config := s.view, stored := s.view }

/-- `meshes[0].specialEffectTriggers` (empty when there are no meshes). -/
def triggersOf (c : Config) : List Trigger :=
  match c.meshes with
  | [] => []
  | m :: _ => m.specialEffectTriggers

/-- Following the spec's words for the delete operation: the trigger entry
is matched "by equality of its time field and effect-reference list against
the view-record's stored copy" of the trigger. -/
def specRemoveTriggerByStoredCopy (c : Config) (stored : Trigger) : Config :=
  match c.meshes with
  | [] => c
  | m :: rest =>
    { c with meshes :=
        { m with specialEffectTriggers := removeFirstMatch stored m.specialEffectTriggers } :: rest }

/-- The delete operation as the spec describes it: remove the trigger
matching the view-record's stored copy of the trigger, then remove the
library entry at its last-known subsequence position. -/
def specDeleteAlarm (c : Config) (alarms : List Alarm) (i : Nat) : Config :=
  match alarms[i]? with
  | none => c
  | some alarm =>
    remove_type6_effect (specRemoveTriggerByStoredCopy c alarm.trigger) alarm.type6_index

/-- A minimal type-6 library entry, for the concrete instances below. -/
def exEffect (nm : String) : Effect :=
  { type := some 6, text := some nm, audioFileName := none, loop := none, extra := [] }

/-- A minimal time trigger, for the concrete instances below. -/
def exTrigger (t : String) (refs : List Int) : Trigger :=
  { triggerAtSecondOfDay := some t, effectIndices := some refs, extra := [] }

/-- Two alarms "A" (at raw time 100, library position 0) and "B" (at raw
time 200, library position 1). -/
def exCfg : Config :=
  { specialEffectLibrary := [exEffect "A", exEffect "B"],
    meshes := [{ specialEffectTriggers := [exTrigger "100" [0], exTrigger "200" [1]] }],
    notes := [] }

/-- One alarm "A" whose raw trigger still holds time 100. -/
def exDriftCfg : Config :=
  { specialEffectLibrary := [exEffect "A"],
    meshes := [{ specialEffectTriggers := [exTrigger "100" [0]] }],
    notes := [] }

/-- The view-record of the alarm of `exDriftCfg` after an in-session edit
changed its time to 200: the stored trigger copy no longer equals the raw
trigger in the document. -/
def exDriftAlarm : Alarm :=
  { seconds := 200, enabled := true, name := "A", audio_file := "", loop := false,
    type6_index := 0, actual_index := 0,
    trigger := exTrigger "200" [0], trigger_index := 0 }

/-- The view-record derived from a trigger whose time field is unparseable. -/
def exBadAlarm : Alarm :=
  { seconds := 0, enabled := true, name := "A", audio_file := "", loop := false,
    type6_index := 0, actual_index := 0,
    trigger := exTrigger "abc" [0], trigger_index := 0 }

/-- Two notes, one without a `visible` field and one with `visible:false`. -/
def exNotes : List Note :=
  [{ visible := none, text := "x", extra := [] },
   { visible := some false, text := "y", extra := [] }]

/-! ## Theorems -/

theorem mem_type6Positions {effects : List Effect} {p : Nat} :
    p ∈ type6Positions effects ↔ ∃ e, effects[p]? = some e ∧ isType6 e := by
  constructor
  · intro h
    simp only [type6Positions, List.mem_map, List.mem_filter] at h
    obtain ⟨⟨i, e⟩, ⟨hmem, h6⟩, rfl⟩ := h
    exact ⟨e, List.mem_enum_iff_getElem?.1 hmem, h6⟩
  · rintro ⟨e, he, h6⟩
    simp only [type6Positions, List.mem_map, List.mem_filter]
    exact ⟨(p, e), ⟨List.mem_enum_iff_getElem?.2 he, h6⟩, rfl⟩

/-- **C2**: composing the inverse map with the forward map is the identity
on every absolute position holding a type-6 entry. -/
theorem projection_inverse_roundtrip (effects : List Effect) (p : Nat)
    (hp : p < effects.length) (h6 : isType6 (effects.get ⟨p, hp⟩)) :
    0 ≤ actualToType6 effects (p : Int) ∧
      type6ToActual effects (actualToType6 effects (p : Int)) = (p : Int) := by
  have hmem : p ∈ type6Positions effects :=
    mem_type6Positions.2 ⟨effects.get ⟨p, hp⟩, by simp [List.getElem?_eq_getElem hp], h6⟩
  have hfind : (type6Positions effects).findIdx? (fun q : Nat => (q : Int) == (p : Int)) ≠ none := by
    intro hnone
    rw [List.findIdx?_eq_none_iff] at hnone
    simpa using hnone p hmem
  obtain ⟨k, hk⟩ := Option.ne_none_iff_exists'.1 hfind
  obtain ⟨hkl, hpk, -⟩ := List.findIdx?_eq_some_iff_getElem.1 hk
  have hval : (type6Positions effects)[k] = p := by simpa using hpk
  have h1 : actualToType6 effects (p : Int) = (k : Int) := by
    rw [actualToType6, hk]
  refine ⟨by omega, ?_⟩
  rw [h1, type6ToActual, if_neg (by omega), Int.toNat_ofNat,
    List.getElem?_eq_getElem hkl, hval]

/-- Witness for the C2 theorem at library `[exEffect "A", exEffect "B"]`,
absolute position 1. -/
theorem projection_inverse_roundtrip_witness :
    0 ≤ actualToType6 exCfg.specialEffectLibrary ((1 : Nat) : Int) ∧
      type6ToActual exCfg.specialEffectLibrary
        (actualToType6 exCfg.specialEffectLibrary ((1 : Nat) : Int)) = ((1 : Nat) : Int) :=
  projection_inverse_roundtrip exCfg.specialEffectLibrary 1 (by decide) (by decide)

theorem mkAlarm?_eq_some {effects : List Effect} {i : Nat} {t : Trigger} {a : Alarm}
    (h : mkAlarm? effects i t = some a) :
    a.trigger = t ∧ a.trigger_index = i ∧
      a.seconds = (decodeTime (t.triggerAtSecondOfDay.getD "0")).1 ∧
      a.enabled = (decodeTime (t.triggerAtSecondOfDay.getD "0")).2 ∧
      (∃ rest, t.effectIndices.getD [] = a.actual_index :: rest) ∧
      a.type6_index = actualToType6 effects a.actual_index ∧
      0 ≤ a.type6_index ∧ a.type6_index < ((type6Effects effects).length : Int) ∧
      ∃ e, (type6Effects effects)[a.type6_index.toNat]? = some e ∧
        a.name = e.text.getD "" ∧ a.audio_file = e.audioFileName.getD "" ∧
        a.loop = e.loop.getD false := by
  simp only [mkAlarm?] at h
  split at h
  · exact absurd h (by simp)
  next x rest hrefs =>
    split at h
    next hcond =>
      split at h
      next e hget =>
        obtain rfl := Option.some.inj h
        exact ⟨rfl, rfl, rfl, rfl, ⟨rest, hrefs⟩, rfl, hcond.1, hcond.2,
          e, hget, rfl, rfl, rfl⟩
      next hget => exact absurd h (by simp)
    next hcond => exact absurd h (by simp)

theorem mem_loadAlarms {effects : List Effect} {tts : List Trigger} {a : Alarm} :
    a ∈ loadAlarms effects tts ↔ ∃ k t, tts[k]? = some t ∧ mkAlarm? effects k t = some a := by
  simp only [loadAlarms, List.mem_filterMap]
  constructor
  · rintro ⟨⟨k, t⟩, hmem, hmk⟩
    exact ⟨k, t, List.mem_enum_iff_getElem?.1 hmem, hmk⟩
  · rintro ⟨k, t, hget, hmk⟩
    exact ⟨(k, t), List.mem_enum_iff_getElem?.2 hget, hmk⟩

/-- **C10**: a trigger whose time field does not parse as an integer loads
as a view-record with `seconds = 0` and `enabled = true`. -/
theorem unparseable_time_loads_enabled_midnight (effects : List Effect)
    (tts : List Trigger) (a : Alarm) (ha : a ∈ loadAlarms effects tts)
    (hbad : pyInt? (a.trigger.triggerAtSecondOfDay.getD "0") = none) :
    a.seconds = 0 ∧ a.enabled = true := by
  obtain ⟨k, t, -, hmk⟩ := mem_loadAlarms.1 ha
  obtain ⟨htrig, -, hsec, hen, -⟩ := mkAlarm?_eq_some hmk
  rw [htrig] at hbad
  rw [hsec, hen, decodeTime, hbad]
  norm_num

/-- Witness for the C10 theorem: time string `"abc"`. -/
theorem unparseable_time_loads_enabled_midnight_witness :
    exBadAlarm.seconds = 0 ∧ exBadAlarm.enabled = true :=
  unparseable_time_loads_enabled_midnight [exEffect "A"] [exTrigger "abc" [0]]
    exBadAlarm (by decide) (by decide)

/-- **C1** (refuted: code bug).  In `exCfg`, alarm "B"'s raw trigger
references absolute library position 1.  Deleting alarm 0 ("A") erases
library position 0 but never rewrites the other triggers' absolute
references, so after the reload the trigger of "B" resolves to nothing:
the rebuilt view has 0 records instead of the claimed 1, and "B"'s
time/name/audio/loop are lost rather than unchanged. -/
theorem delete_then_reload_corrupts_later_alarms :
    (loadFromConfig exCfg).length = 2 ∧
      loadFromConfig (deleteAlarm exCfg (loadFromConfig exCfg) 0) = [] := by decide

/-- **C9**: a note without a `visible` field is loaded as visible; the
in-memory record gains `visible = true`; the persisted document is
unchanged by the load and gains the field on save; notes carrying the
field keep their value. -/
theorem visible_defaults_on_load (file : List Note) (k : Nat) :
    (noteLoadData (noteOpen file)).stored = file ∧
    (∀ n, file[k]? = some n → n.visible = none →
      (noteLoadData (noteOpen file)).view[k]? = some { n with visible := some true } ∧
      (noteLoadData (noteOpen file)).config[k]? = some { n with visible := some true } ∧
      (noteSave (noteLoadData (noteOpen file))).stored[k]? = some { n with visible := some true }) ∧
    (∀ n b, file[k]? = some n → n.visible = some b →
      (noteLoadData (noteOpen file)).view[k]? = some n) := by
  refine ⟨rfl, ?_, ?_⟩
  · intro n hn hvis
    refine ⟨?_, ?_, ?_⟩ <;>
      simp [noteLoadData, noteOpen, noteSave, List.getElem?_map, hn, ensureVisible, hvis]
  · intro n b hn hvis
    simp [noteLoadData, noteOpen, ensureVisible, List.getElem?_map, hn, hvis]

/-- Witness for the C9 theorem on `exNotes`: note 0 lacks `visible`,
note 1 carries `visible = false`. -/
theorem visible_defaults_on_load_witness :
    ((noteLoadData (noteOpen exNotes)).view[0]? =
        some { visible := some true, text := "x", extra := [] } ∧
      (noteLoadData (noteOpen exNotes)).config[0]? =
        some { visible := some true, text := "x", extra := [] } ∧
      (noteSave (noteLoadData (noteOpen exNotes))).stored[0]? =
        some { visible := some true, text := "x", extra := [] }) ∧
    (noteLoadData (noteOpen exNotes)).view[1]? =
      some { visible := some false, text := "y", extra := [] } :=
  ⟨(visible_defaults_on_load exNotes 0).2.1 { visible := none, text := "x", extra := [] }
      (by decide) (by decide),
    (visible_defaults_on_load exNotes 1).2.2 { visible := some false, text := "y", extra := [] }
      false (by decide) (by decide)⟩

theorem type6ToActual_eq (effects : List Effect) (k : Int) :
    type6ToActual effects k =
      if 0 ≤ k ∧ k < ((type6Positions effects).length : Int)
      then (((type6Positions effects).getD k.toNat 0 : Nat) : Int) else -1 := by
  rw [type6ToActual]
  by_cases h0 : k < 0
  · rw [if_pos h0, if_neg (by omega)]
  · rw [if_neg h0]
    rcases hget : (type6Positions effects)[k.toNat]? with - | p
    · have hlen : (type6Positions effects).length ≤ k.toNat := by
        simpa using List.getElem?_eq_none_iff.1 hget
      rw [if_neg (by omega)]
    · have hlt : k.toNat < (type6Positions effects).length := by
        by_contra hge
        rw [List.getElem?_eq_none (by omega)] at hget
        exact Option.noConfusion hget
      rw [if_pos ⟨by omega, by omega⟩, List.getD_eq_getElem?_getD, hget]
      rfl

/-- **C5**: `_save_alarms` equals a filter of the valid view-records
followed by re-encoding: records whose alarm-subsequence position no
longer resolves to an absolute library position are silently omitted, all
other records are persisted in order, each persisted trigger carrying the
freshly recomputed absolute position as a single-element reference list;
the save is a total function and never fails. -/
theorem save_silently_drops_stale_records (effects : List Effect) (alarms : List Alarm) :
    saveAlarms effects alarms =
      (alarms.filter (fun a => decide (0 ≤ a.type6_index ∧
          a.type6_index < ((type6Positions effects).length : Int)))).map
        (fun a => { a.trigger with
            triggerAtSecondOfDay :=
              some (toString (if a.enabled then a.seconds else a.seconds + 100000)),
            effectIndices :=
              some [(((type6Positions effects).getD a.type6_index.toNat 0 : Nat) : Int)] }) := by
  induction alarms with
  | nil => rfl
  | cons a alarms ih =>
    by_cases hv : 0 ≤ a.type6_index ∧ a.type6_index < ((type6Positions effects).length : Int)
    · have hp : persistAlarm effects a =
          some { a.trigger with
            triggerAtSecondOfDay :=
              some (toString (if a.enabled then a.seconds else a.seconds + 100000)),
            effectIndices :=
              some [(((type6Positions effects).getD a.type6_index.toNat 0 : Nat) : Int)] } := by
        rw [persistAlarm, type6ToActual_eq, if_pos hv, if_pos (by positivity)]
      rw [saveAlarms, List.filterMap_cons_some hp, List.filter_cons_of_pos (by simpa using hv),
        List.map_cons]
      exact congrArg _ ih
    · have hp : persistAlarm effects a = none := by
        rw [persistAlarm, type6ToActual_eq, if_neg hv, if_neg (by omega)]
      rw [saveAlarms, List.filterMap_cons_none hp, List.filter_cons_of_neg (by simpa using hv)]
      exact ih

/-- **C6**: rebuilding writes all non-time triggers first in original
order, then the supplied time triggers in order; extracting and
rebuilding again from the result of a rebuild changes nothing. -/
theorem rebuild_concat_and_idempotent (c : Config) (ts : List Trigger)
    (hm : c.meshes ≠ []) (hts : ∀ t ∈ ts, hasTime t) :
    triggersOf (set_time_triggers c ts) =
        (triggersOf c).filter (fun t => !hasTime t) ++ ts ∧
      get_time_triggers (set_time_triggers c ts) = ts ∧
      set_time_triggers (set_time_triggers c ts)
          (get_time_triggers (set_time_triggers c ts)) =
        set_time_triggers c ts := by
  rcases hc : c.meshes with - | ⟨m, rest⟩
  · exact absurd hc hm
  have hfilter_ts : ts.filter hasTime = ts := List.filter_eq_self.2 hts
  have hfilter_ts' : ts.filter (fun t => !hasTime t) = [] := by
    rw [List.filter_eq_nil_iff]
    intro t ht
    simp [hts t ht]
  have h1 : triggersOf (set_time_triggers c ts) =
      (triggersOf c).filter (fun t => !hasTime t) ++ ts := by
    simp [set_time_triggers, triggersOf, hc]
  have h2 : get_time_triggers (set_time_triggers c ts) = ts := by
    simp [set_time_triggers, hc, get_time_triggers, List.filter_append, hfilter_ts,
      List.filter_filter]
  refine ⟨h1, h2, ?_⟩
  rw [h2]
  simp [set_time_triggers, hc, List.filter_append, List.filter_filter, hfilter_ts']

/-- Witness for the C6 theorem on `exCfg` with one supplied time trigger. -/
theorem rebuild_concat_and_idempotent_witness :
    triggersOf (set_time_triggers exCfg [exTrigger "7" [0]]) =
        (triggersOf exCfg).filter (fun t => !hasTime t) ++ [exTrigger "7" [0]] ∧
      get_time_triggers (set_time_triggers exCfg [exTrigger "7" [0]]) = [exTrigger "7" [0]] ∧
      set_time_triggers (set_time_triggers exCfg [exTrigger "7" [0]])
          (get_time_triggers (set_time_triggers exCfg [exTrigger "7" [0]])) =
        set_time_triggers exCfg [exTrigger "7" [0]] :=
  rebuild_concat_and_idempotent exCfg [exTrigger "7" [0]] (by decide) (by decide)

theorem toDigitsCore_append (b : Nat) :
    ∀ (fuel n : Nat) (ds : List Char),
      Nat.toDigitsCore b fuel n ds = Nat.toDigitsCore b fuel n [] ++ ds := by
  intro fuel
  induction fuel with
  | zero => intro n ds; simp [Nat.toDigitsCore]
  | succ fuel ih =>
    intro n ds
    simp only [Nat.toDigitsCore]
    by_cases h : n / b = 0
    · simp [h]
    · rw [if_neg h, if_neg h, ih _ (Nat.digitChar (n % b) :: ds), ih _ [Nat.digitChar (n % b)]]
      simp

theorem digitChar_isDigit {d : Nat} (h : d < 10) : (Nat.digitChar d).isDigit = true := by
  interval_cases d <;> decide

theorem digitChar_val {d : Nat} (h : d < 10) : (Nat.digitChar d).toNat - '0'.toNat = d := by
  interval_cases d <;> decide

theorem toDigitsCore_all_digits :
    ∀ (fuel n : Nat) (ds : List Char), (∀ c ∈ ds, c.isDigit = true) →
      ∀ c ∈ Nat.toDigitsCore 10 fuel n ds, c.isDigit = true := by
  intro fuel
  induction fuel with
  | zero => intro n ds hds; simpa [Nat.toDigitsCore] using hds
  | succ fuel ih =>
    intro n ds hds
    simp only [Nat.toDigitsCore]
    have hd : (Nat.digitChar (n % 10)).isDigit = true :=
      digitChar_isDigit (Nat.mod_lt _ (by norm_num))
    have hds' : ∀ c ∈ Nat.digitChar (n % 10) :: ds, c.isDigit = true := by
      intro c hc
      rcases List.mem_cons.1 hc with rfl | hc
      · exact hd
      · exact hds c hc
    by_cases h : n / 10 = 0
    · rw [if_pos h]
      exact hds'
    · rw [if_neg h]
      exact ih _ _ hds'

theorem toDigitsCore_foldl_val :
    ∀ (n fuel : Nat), n < fuel → ∀ (a : Nat),
      (Nat.toDigitsCore 10 fuel n []).foldl (fun acc c => acc * 10 + (c.toNat - '0'.toNat)) a =
        a * 10 ^ (Nat.toDigitsCore 10 fuel n []).length + n := by
  intro n
  induction n using Nat.strong_induction_on with
  | _ n ih =>
    intro fuel hfuel a
    match fuel, hfuel with
    | fuel + 1, hfuel =>
      simp only [Nat.toDigitsCore]
      by_cases h : n / 10 = 0
      · rw [if_pos h]
        have hn : n < 10 := (Nat.div_eq_zero_iff (by norm_num)).1 h
        simp only [List.foldl_cons, List.foldl_nil, List.length_cons, List.length_nil,
          Nat.zero_add]
        rw [Nat.mod_eq_of_lt hn, digitChar_val hn, pow_one]
      · rw [if_neg h]
        have h10 : n / 10 < n := Nat.div_lt_self (by omega) (by norm_num)
        have hlt : n / 10 < fuel := by omega
        rw [toDigitsCore_append 10 fuel (n / 10) [Nat.digitChar (n % 10)]]
        rw [List.foldl_append, List.length_append]
        rw [ih (n / 10) h10 fuel hlt a]
        simp only [List.foldl_cons, List.foldl_nil, List.length_cons, List.length_nil,
          Nat.zero_add]
        rw [digitChar_val (Nat.mod_lt _ (by norm_num))]
        calc ((a * 10 ^ (Nat.toDigitsCore 10 fuel (n / 10) []).length + n / 10) * 10 + n % 10)
            = a * (10 ^ (Nat.toDigitsCore 10 fuel (n / 10) []).length * 10) +
                (10 * (n / 10) + n % 10) := by ring
          _ = a * 10 ^ ((Nat.toDigitsCore 10 fuel (n / 10) []).length + 1) + n := by
                rw [Nat.div_add_mod, pow_succ]

theorem toDigits_ne_nil (n : Nat) : Nat.toDigits 10 n ≠ [] := by
  rw [Nat.toDigits]
  simp only [Nat.toDigitsCore]
  by_cases h : n / 10 = 0
  · simp [h]
  · rw [if_neg h, toDigitsCore_append]
    simp

theorem digitsVal_of_digits :
    ∀ (l : List Char) (acc : Nat), (∀ c ∈ l, c.isDigit = true) →
      digitsVal acc l = some (l.foldl (fun a c => a * 10 + (c.toNat - '0'.toNat)) acc) := by
  intro l
  induction l with
  | nil => intro acc _; rfl
  | cons c cs ih =>
    intro acc h
    rw [digitsVal, if_pos (h c (List.mem_cons_self c cs)), List.foldl_cons]
    exact ih _ (fun x hx => h x (List.mem_cons_of_mem c hx))

theorem isDigit_not_isWhitespace {c : Char} (h : c.isDigit = true) : c.isWhitespace = false := by
  by_contra hws
  rw [Bool.not_eq_false] at hws
  simp only [Char.isWhitespace, Bool.or_eq_true, decide_eq_true_eq] at hws
  rcases hws with ((rfl | rfl) | rfl) | rfl <;> exact absurd h (by decide)

theorem dropWhile_ws_of_digits (l : List Char) (hl : ∀ c ∈ l, c.isDigit = true) :
    l.dropWhile Char.isWhitespace = l := by
  cases l with
  | nil => rfl
  | cons c cs =>
    rw [List.dropWhile_cons,
      if_neg (by simp [isDigit_not_isWhitespace (hl c (List.mem_cons_self c cs))])]

theorem pyInt?_repr (n : Nat) : pyInt? (Nat.repr n) = some (n : Int) := by
  have hne := toDigits_ne_nil n
  have hdig : ∀ c ∈ Nat.toDigits 10 n, c.isDigit = true :=
    toDigitsCore_all_digits _ _ _ (by simp)
  have hdata : (Nat.repr n).data = Nat.toDigits 10 n := rfl
  have hdigrev : ∀ c ∈ (Nat.toDigits 10 n).reverse, c.isDigit = true := by
    intro c hc
    exact hdig c (List.mem_reverse.1 hc)
  rw [pyInt?, hdata, dropWhile_ws_of_digits _ hdig, dropWhile_ws_of_digits _ hdigrev,
    List.reverse_reverse]
  obtain ⟨c, cs, hcons⟩ := List.exists_cons_of_ne_nil hne
  have hc : c.isDigit = true := hdig c (by rw [hcons]; exact List.mem_cons_self c cs)
  have hm : (c == '-') = false := by
    rw [beq_eq_false_iff_ne]
    rintro rfl
    exact absurd hc (by decide)
  have hp : (c == '+') = false := by
    rw [beq_eq_false_iff_ne]
    rintro rfl
    exact absurd hc (by decide)
  rw [hcons, pyIntCore, hm, hp]
  simp only [Bool.false_eq_true, if_false]
  rw [parseDigits, ← hcons, digitsVal_of_digits _ _ hdig]
  have hfold := toDigitsCore_foldl_val n (n + 1) (by omega) 0
  rw [show Nat.toDigits 10 n = Nat.toDigitsCore 10 (n + 1) n [] from rfl, hfold]
  simp

theorem toString_intOfNat (n : Nat) : toString ((n : Int)) = Nat.repr n := rfl

/-- **C3**: for every `seconds ∈ [0, 86400)` and flag, decoding the
encoded trigger time string returns exactly the pair. -/
theorem encode_decode_roundtrip (seconds : Int) (enabled : Bool)
    (h0 : 0 ≤ seconds) (h1 : seconds < 86400) :
    decodeTime (encodeTime seconds enabled) = (seconds, enabled) := by
  obtain ⟨n, rfl⟩ := Int.eq_ofNat_of_zero_le h0
  have hn : n < 86400 := by exact_mod_cast h1
  cases enabled with
  | false =>
    have hcast : ((n : Int) + 100000) = ((n + 100000 : Nat) : Int) := by push_cast; ring
    have he : encodeTime (n : Int) false = Nat.repr (n + 100000) := by
      rw [encodeTime, if_neg (by simp), hcast, toString_intOfNat]
    rw [he, decodeTime, pyInt?_repr]
    simp only [Option.getD_some]
    rw [if_pos (by push_cast; omega)]
    refine Prod.ext ?_ rfl
    push_cast
    ring
  | true =>
    have he : encodeTime (n : Int) true = Nat.repr n := by
      rw [encodeTime, if_pos rfl, toString_intOfNat]
    rw [he, decodeTime, pyInt?_repr]
    simp only [Option.getD_some]
    rw [if_neg (by omega)]

/-- Witness for the C3 theorem at 3600 seconds, disabled. -/
theorem encode_decode_roundtrip_witness :
    decodeTime (encodeTime 3600 false) = (3600, false) :=
  encode_decode_roundtrip 3600 false (by decide) (by decide)

theorem time_to_seconds_spec (s : String) :
    (0 ≤ time_to_seconds s ∧ ∃ hs ms h m, pySplit s ':' = [hs, ms] ∧
        pyInt? hs = some h ∧ pyInt? ms = some m ∧
        0 ≤ h ∧ h < 24 ∧ 0 ≤ m ∧ m < 60 ∧ time_to_seconds s = h * 3600 + m * 60) ∨
      (time_to_seconds s = -1 ∧ ¬ ∃ hs ms h m, pySplit s ':' = [hs, ms] ∧
        pyInt? hs = some h ∧ pyInt? ms = some m ∧
        0 ≤ h ∧ h < 24 ∧ 0 ≤ m ∧ m < 60) := by
  rcases hsp : pySplit s ':' with - | ⟨a, - | ⟨b, - | ⟨e, l⟩⟩⟩
  · refine Or.inr ⟨by simp [time_to_seconds, hsp], ?_⟩
    rintro ⟨hs, ms, h, m, hsp', -⟩
    exact List.noConfusion hsp'
  · refine Or.inr ⟨by simp [time_to_seconds, hsp], ?_⟩
    rintro ⟨hs, ms, h, m, hsp', -⟩
    simp at hsp'
  · rcases hA : pyInt? a with - | h
    · refine Or.inr ⟨by simp [time_to_seconds, hsp, hA], ?_⟩
      rintro ⟨hs, ms, h, m, hsp', hh, -⟩
      obtain ⟨rfl, rfl⟩ : hs = a ∧ ms = b := by simpa using hsp'.symm
      rw [hA] at hh
      exact Option.noConfusion hh
    · rcases hB : pyInt? b with - | m
      · refine Or.inr ⟨by simp [time_to_seconds, hsp, hA, hB], ?_⟩
        rintro ⟨hs, ms, h', m', hsp', hh, hm, -⟩
        obtain ⟨rfl, rfl⟩ : hs = a ∧ ms = b := by simpa using hsp'.symm
        rw [hB] at hm
        exact Option.noConfusion hm
      · by_cases hr : 0 ≤ h ∧ h < 24 ∧ 0 ≤ m ∧ m < 60
        · have hval : time_to_seconds s = h * 3600 + m * 60 := by
            simp [time_to_seconds, hsp, hA, hB, hr]
          exact Or.inl ⟨by rw [hval]; omega,
            a, b, h, m, rfl, hA, hB, hr.1, hr.2.1, hr.2.2.1, hr.2.2.2, hval⟩
        · refine Or.inr ⟨by simp [time_to_seconds, hsp, hA, hB, hr], ?_⟩
          rintro ⟨hs, ms, h', m', hsp', hh, hm, hr1, hr2, hr3, hr4⟩
          obtain ⟨rfl, rfl⟩ : hs = a ∧ ms = b := by simpa using hsp'.symm
          rw [hA] at hh
          rw [hB] at hm
          obtain rfl := Option.some.inj hh
          obtain rfl := Option.some.inj hm
          exact hr ⟨hr1, hr2, hr3, hr4⟩
  · refine Or.inr ⟨by simp [time_to_seconds, hsp], ?_⟩
    rintro ⟨hs, ms, h, m, hsp', -⟩
    simp at hsp'

/-- **C7**: time-string validation accepts exactly the strings of two
colon-separated integer parts in `[0,24) × [0,60)`, yielding
`HH*3600 + MM*60` (`"8:5"` gives 29100, `"25:00"` is rejected); on any
rejected input the in-progress edit is aborted and neither the alarm list
nor the document is mutated. -/
theorem time_validation_exact (s : String) :
    time_to_seconds "8:5" = 29100 ∧
      time_to_seconds "25:00" = -1 ∧
      (0 ≤ time_to_seconds s ↔ ∃ hs ms h m, pySplit s ':' = [hs, ms] ∧
          pyInt? hs = some h ∧ pyInt? ms = some m ∧
          0 ≤ h ∧ h < 24 ∧ 0 ≤ m ∧ m < 60) ∧
      (∀ hs ms h m, pySplit s ':' = [hs, ms] → pyInt? hs = some h → pyInt? ms = some m →
          0 ≤ h → h < 24 → 0 ≤ m → m < 60 → time_to_seconds s = h * 3600 + m * 60) ∧
      (time_to_seconds s < 0 → ∀ st index nm audio enabled loop_input,
          saveAlarmEdit st index s nm audio enabled loop_input = st) := by
  refine ⟨by decide, by decide, ?_, ?_, ?_⟩
  · constructor
    · intro hpos
      rcases time_to_seconds_spec s with ⟨-, hex⟩ | ⟨hneg, -⟩
      · obtain ⟨hs, ms, h, m, h1, h2, h3, h4, h5, h6, h7, -⟩ := hex
        exact ⟨hs, ms, h, m, h1, h2, h3, h4, h5, h6, h7⟩
      · omega
    · intro hex
      rcases time_to_seconds_spec s with ⟨hpos, -⟩ | ⟨-, hnex⟩
      · exact hpos
      · exact absurd hex hnex
  · intro hs ms h m hsp hh hm h1 h2 h3 h4
    rcases time_to_seconds_spec s with ⟨-, hex⟩ | ⟨-, hnex⟩
    · obtain ⟨hs', ms', h', m', hsp', hh', hm', -, -, -, -, hval⟩ := hex
      rw [hsp] at hsp'
      obtain ⟨rfl, rfl⟩ : hs = hs' ∧ ms = ms' := by simpa using hsp'
      rw [hh] at hh'
      rw [hm] at hm'
      obtain rfl := Option.some.inj hh'
      obtain rfl := Option.some.inj hm'
      exact hval
    · exact absurd ⟨hs, ms, h, m, hsp, hh, hm, h1, h2, h3, h4⟩ hnex
  · intro hneg st index nm audio enabled loop_input
    simp only [saveAlarmEdit]
    rw [if_pos hneg]

/-- Witness for the C7 theorem: `"99:99"` is rejected and the edit leaves
the session state of `exCfg` unchanged. -/
theorem time_validation_exact_witness :
    time_to_seconds "99:99" < 0 ∧
      saveAlarmEdit (loadState exCfg) 0 "99:99" "" "" true false = loadState exCfg :=
  ⟨by decide, (time_validation_exact "99:99").2.2.2.2 (by decide) (loadState exCfg) 0 "" "" true false⟩

theorem type6Positions_enumFrom (E : List Effect) : ∀ (n : Nat),
    ((E.enumFrom n).filter (fun p => isType6 p.2)).map Prod.fst =
      (type6Positions E).map (· + n) := by
  induction E with
  | nil => intro n; rfl
  | cons e E ih =>
    intro n
    have hL : ((e :: E).enumFrom n).filter (fun p => isType6 p.2) =
        (if isType6 e then [(n, e)] else []) ++
          (E.enumFrom (n + 1)).filter (fun p => isType6 p.2) := by
      rw [show (e :: E).enumFrom n = (n, e) :: E.enumFrom (n + 1) from rfl, List.filter_cons]
      by_cases h6 : isType6 e <;> simp [h6]
    have hR : type6Positions (e :: E) =
        (if isType6 e then [0] else []) ++ (type6Positions E).map (· + 1) := by
      rw [type6Positions, show (e :: E).enum = (0, e) :: E.enumFrom 1 from rfl, List.filter_cons]
      by_cases h6 : isType6 e <;> simp [h6, ih 1]
    rw [hL, List.map_append, ih (n + 1), hR, List.map_append, List.map_map]
    by_cases h6 : isType6 e
    · simp only [h6, if_true, List.map_cons, List.map_nil]
      refine congrArg₂ _ (by simp) ?_
      exact List.map_congr_left fun x _ => by simp [Function.comp]; omega
    · simp only [h6, Bool.false_eq_true, if_false, List.map_nil, List.nil_append]
      exact List.map_congr_left fun x _ => by simp [Function.comp]; omega

theorem type6Positions_cons (e : Effect) (E : List Effect) :
    type6Positions (e :: E) =
      if isType6 e then 0 :: (type6Positions E).map (· + 1)
      else (type6Positions E).map (· + 1) := by
  rw [type6Positions, show (e :: E).enum = (0, e) :: E.enumFrom 1 from rfl, List.filter_cons]
  by_cases h6 : isType6 e <;> simp [h6, type6Positions_enumFrom]

theorem type6Positions_length (E : List Effect) :
    (type6Positions E).length = (type6Effects E).length := by
  induction E with
  | nil => rfl
  | cons e E ih =>
    rw [type6Positions_cons]
    have hE : type6Effects (e :: E) =
        if isType6 e then e :: type6Effects E else type6Effects E := by
      rw [type6Effects, List.filter_cons]
      by_cases h6 : isType6 e <;> simp [h6, type6Effects]
    rw [hE]
    by_cases h6 : isType6 e <;> simp [h6, ih]

theorem type6Effects_getElem? (E : List Effect) :
    ∀ (k p : Nat), (type6Positions E)[k]? = some p → (type6Effects E)[k]? = E[p]? := by
  induction E with
  | nil => intro k p h; simp [type6Positions] at h
  | cons e E ih =>
    intro k p h
    rw [type6Positions_cons] at h
    by_cases h6 : isType6 e
    · rw [if_pos h6] at h
      cases k with
      | zero =>
        rw [List.getElem?_cons_zero] at h
        obtain rfl : (0 : Nat) = p := Option.some.inj h
        simp [type6Effects, List.filter_cons, h6]
      | succ k =>
        rw [List.getElem?_cons_succ, List.getElem?_map] at h
        rcases hq : (type6Positions E)[k]? with - | q
        · rw [hq] at h
          exact Option.noConfusion h
        · rw [hq] at h
          obtain rfl : q + 1 = p := Option.some.inj h
          have hE := ih k q hq
          rw [type6Effects, List.filter_cons, if_pos h6, List.getElem?_cons_succ,
            List.getElem?_cons_succ]
          exact hE
    · rw [if_neg h6] at h
      rw [List.getElem?_map] at h
      rcases hq : (type6Positions E)[k]? with - | q
      · rw [hq] at h
        exact Option.noConfusion h
      · rw [hq] at h
        obtain rfl : q + 1 = p := Option.some.inj h
        have hE := ih k q hq
        rw [type6Effects, List.filter_cons, if_neg h6, List.getElem?_cons_succ]
        exact hE

/-- **C8**: on a valid update of an existing alarm, the library is changed
only at the alarm's absolute position; the new entry has its text
overwritten, the audio field set when a non-empty reference is supplied
and removed otherwise, the loop field present (`true`) when chosen and
absent otherwise, and every other field (discriminant and passthrough bag)
taken unchanged from the old entry. -/
theorem update_overwrites_only_text_audio_loop
    (s : AlarmState) (i : Nat) (time_str nm audio : String)
    (enabled loop_input : Bool) (p : Nat)
    (hcoh : s.type6_effects = get_type6_effects s.config)
    (ha : i < s.alarms.length)
    (hvalid : 0 ≤ time_to_seconds time_str)
    (h0 : 0 ≤ (s.alarms.get ⟨i, ha⟩).type6_index)
    (hp : (type6Positions s.config.specialEffectLibrary)[(s.alarms.get ⟨i, ha⟩).type6_index.toNat]?
        = some p) :
    ∃ old, s.config.specialEffectLibrary[p]? = some old ∧
      (saveAlarmEdit s (i : Int) time_str nm audio enabled loop_input).config.specialEffectLibrary =
        s.config.specialEffectLibrary.set p
          { old with
            text := some nm,
            audioFileName := if audio ≠ "" then some audio else none,
            loop := if loop_input then some true else none } := by
  obtain ⟨old, hold, hold6⟩ := mem_type6Positions.1 (List.getElem?_mem hp)
  refine ⟨old, hold, ?_⟩
  have hcache : s.type6_effects[(s.alarms.get ⟨i, ha⟩).type6_index.toNat]? = some old := by
    rw [hcoh, get_type6_effects,
      type6Effects_getElem? s.config.specialEffectLibrary _ p hp, hold]
  obtain ⟨hplen, -⟩ := List.getElem?_eq_some.1 hp
  simp only [List.get_eq_getElem] at hcache hp h0 hplen
  simp only [saveAlarmEdit]
  rw [if_neg (by omega), if_pos (by omega : (0 : Int) ≤ (i : Int)), Int.toNat_ofNat,
    List.getElem?_eq_getElem ha]
  dsimp only
  rw [hcache]
  dsimp only
  simp only [set_type6_effect]
  rw [if_pos ⟨h0, by omega⟩]
  rw [List.getD_eq_getElem?_getD, hp]
  simp only [Option.getD_some]
  split_ifs <;> rfl

/-- Witness for the C8 theorem: update alarm 0 of `exCfg` to name "N",
audio "a.mp3", loop on. -/
theorem update_overwrites_only_text_audio_loop_witness :
    ∃ old, exCfg.specialEffectLibrary[0]? = some old ∧
      (saveAlarmEdit (loadState exCfg) ((0 : Nat) : Int) "08:00" "N" "a.mp3"
          true true).config.specialEffectLibrary =
        exCfg.specialEffectLibrary.set 0
          { old with
            text := some "N",
            audioFileName := if "a.mp3" ≠ "" then some "a.mp3" else none,
            loop := if true then some true else none } :=
  update_overwrites_only_text_audio_loop (loadState exCfg) 0 "08:00" "N" "a.mp3"
    true true 0 (by decide) (by decide) (by decide) (by decide) (by decide)

theorem matchesTrigger_self (tt : Trigger) : matchesTrigger tt tt = true := by
  simp [matchesTrigger]

theorem hasTime_of_matches {tt t : Trigger} (htt : hasTime tt = true)
    (h : matchesTrigger tt t = true) : hasTime t = true := by
  simp only [matchesTrigger, Bool.and_eq_true, beq_iff_eq] at h
  simp only [hasTime] at htt ⊢
  rw [h.1]
  exact htt

theorem removeFirstMatch_filter_nonTime (tt : Trigger) (htt : hasTime tt = true) :
    ∀ l : List Trigger,
      (removeFirstMatch tt l).filter (fun t => !hasTime t) =
        l.filter (fun t => !hasTime t) := by
  intro l
  induction l with
  | nil => rfl
  | cons t ts ih =>
    rw [removeFirstMatch]
    by_cases hm : matchesTrigger tt t = true
    · rw [if_pos hm, List.filter_cons,
        if_neg (by simp [hasTime_of_matches htt hm])]
    · rw [if_neg hm, List.filter_cons, List.filter_cons]
      by_cases hh : (!hasTime t) = true
      · rw [if_pos hh, if_pos hh, ih]
      · rw [if_neg hh, if_neg hh]
        exact ih

theorem removeFirstMatch_filter_time (tt : Trigger) (htt : hasTime tt = true) :
    ∀ l : List Trigger,
      (removeFirstMatch tt l).filter hasTime = removeFirstMatch tt (l.filter hasTime) := by
  intro l
  induction l with
  | nil => rfl
  | cons t ts ih =>
    rw [removeFirstMatch]
    by_cases hm : matchesTrigger tt t = true
    · rw [if_pos hm, List.filter_cons, if_pos (hasTime_of_matches htt hm),
        removeFirstMatch, if_pos hm]
    · rw [if_neg hm, List.filter_cons, List.filter_cons]
      by_cases hh : hasTime t = true
      · rw [if_pos hh, if_pos hh, removeFirstMatch, if_neg hm, ih]
      · rw [if_neg hh, if_neg hh]
        exact ih

theorem removeFirstMatch_eraseIdx (tt : Trigger) :
    ∀ (l : List Trigger) (k : Nat), l[k]? = some tt →
      (∀ j, j < k → ∀ x, l[j]? = some x → matchesTrigger tt x = false) →
      removeFirstMatch tt l = l.eraseIdx k := by
  intro l
  induction l with
  | nil => intro k hk _; simp at hk
  | cons t ts ih =>
    intro k hk hno
    cases k with
    | zero =>
      rw [List.getElem?_cons_zero] at hk
      obtain rfl := Option.some.inj hk
      rw [removeFirstMatch, if_pos (matchesTrigger_self _), List.eraseIdx_cons_zero]
    | succ k =>
      rw [List.getElem?_cons_succ] at hk
      have h0 : matchesTrigger tt t = false :=
        hno 0 (by omega) t (List.getElem?_cons_zero)
      rw [removeFirstMatch, if_neg (by simp [h0]), List.eraseIdx_cons_succ]
      refine congrArg _ (ih k hk ?_)
      intro j hj x hx
      exact hno (j + 1) (by omega) x (by rw [List.getElem?_cons_succ]; exact hx)

theorem mkAlarm?_congr {effects : List Effect} {k j : Nat} {t t' : Trigger} {a : Alarm}
    (ht : t'.triggerAtSecondOfDay = t.triggerAtSecondOfDay)
    (hr : t'.effectIndices = t.effectIndices)
    (h : mkAlarm? effects k t = some a) :
    mkAlarm? effects j t' = some { a with trigger := t', trigger_index := j } := by
  simp only [mkAlarm?] at h ⊢
  rw [ht, hr]
  split at h
  next => exact absurd h (by simp)
  next x rest hrefs =>
    split at h
    next hcond =>
      split at h
      next e hget =>
        obtain rfl := Option.some.inj h
        rw [if_pos hcond]
      next hget => exact absurd h (by simp)
    next hcond => exact absurd h (by simp)

theorem triggersOf_eq {c : Config} {m : Mesh} {rest : List Mesh}
    (h : c.meshes = m :: rest) : triggersOf c = m.specialEffectTriggers := by
  simp [triggersOf, h]

theorem get_time_triggers_eq (c : Config) :
    get_time_triggers c = (triggersOf c).filter hasTime := by
  cases c with
  | mk lib meshes notes => cases meshes <;> rfl

theorem remove_time_trigger_library (c : Config) (k : Nat) :
    (remove_time_trigger c k).specialEffectLibrary = c.specialEffectLibrary := by
  cases c with
  | mk lib meshes notes =>
    cases meshes with
    | nil => rfl
    | cons m rest =>
      simp only [remove_time_trigger]
      split <;> rfl

theorem remove_type6_effect_meshes (c : Config) (idx : Int) :
    (remove_type6_effect c idx).meshes = c.meshes := by
  simp only [remove_type6_effect]
  split <;> rfl

/-- **C4** (counterexample to the claim as stated): at session state
`(exDriftCfg, [exDriftAlarm])` — reachable by editing the alarm's time
from 100 to 200 without saving — the code's delete removes the raw
trigger (it matches the trigger freshly re-extracted at the stored
time-subsequence index), while matching against the view-record's stored
copy, as the claim describes, removes nothing: the two results differ. -/
theorem delete_not_by_stored_copy :
    triggersOf (deleteAlarm exDriftCfg [exDriftAlarm] 0) = [] ∧
      triggersOf (specDeleteAlarm exDriftCfg [exDriftAlarm] 0) = [exTrigger "100" [0]] ∧
      deleteAlarm exDriftCfg [exDriftAlarm] 0 ≠ specDeleteAlarm exDriftCfg [exDriftAlarm] 0 := by
  decide

/-- **C4** (amended): deleting alarm `i` of a freshly loaded view whose
records reference pairwise distinct library entries removes the trigger
entry first — matched by equality of its time field and effect-reference
list (the match key being the trigger at the view-record's stored
time-subsequence index in the freshly extracted time-trigger list, not the
view-record's stored copy), never by positional index into the backing
trigger array — and the library entry second: the time-trigger subsequence
loses exactly entry `trigger_index`, the non-time triggers are untouched,
and the library loses exactly the entry at the alarm's absolute position. -/
theorem delete_removes_trigger_by_value_then_library (c : Config) (i : Nat)
    (hi : i < (loadFromConfig c).length)
    (hdist : ∀ a1 ∈ loadFromConfig c, ∀ a2 ∈ loadFromConfig c,
        a1.trigger_index ≠ a2.trigger_index → a1.actual_index ≠ a2.actual_index) :
    get_time_triggers (deleteAlarm c (loadFromConfig c) i) =
        (get_time_triggers c).eraseIdx ((loadFromConfig c).get ⟨i, hi⟩).trigger_index ∧
      (triggersOf (deleteAlarm c (loadFromConfig c) i)).filter (fun t => !hasTime t) =
        (triggersOf c).filter (fun t => !hasTime t) ∧
      (deleteAlarm c (loadFromConfig c) i).specialEffectLibrary =
        c.specialEffectLibrary.eraseIdx
          ((loadFromConfig c).get ⟨i, hi⟩).actual_index.toNat := by
  set alarms := loadFromConfig c with halarms
  set a := alarms.get ⟨i, hi⟩ with ha_def
  have hmem : a ∈ alarms := List.get_mem alarms i hi
  obtain ⟨k, t, hkt, hmk⟩ :=
    (@mem_loadAlarms c.specialEffectLibrary (get_time_triggers c) a).1 hmem
  obtain ⟨htrig, htidx, -, -, ⟨tl, hrefs⟩, ht6eq, ht6nn, ht6lt, e, hgete, -, -, -⟩ :=
    mkAlarm?_eq_some hmk
  rcases hc : c.meshes with - | ⟨m, rest_m⟩
  · have hempty : get_time_triggers c = [] := by simp [get_time_triggers, hc]
    rw [hempty] at hkt
    simp at hkt
  have hgtt : get_time_triggers c = m.specialEffectTriggers.filter hasTime := by
    simp [get_time_triggers, hc]
  have hgeti : alarms[i]? = some a := by
    rw [List.getElem?_eq_getElem hi]
    rfl
  have hdel : deleteAlarm c alarms i =
      remove_type6_effect (remove_time_trigger c a.trigger_index) a.type6_index := by
    simp [deleteAlarm, hgeti]
  have htt_at : (m.specialEffectTriggers.filter hasTime)[a.trigger_index]? = some a.trigger := by
    rw [← hgtt, htidx, htrig]
    exact hkt
  have hrm : remove_time_trigger c a.trigger_index =
      { c with meshes :=
          { m with specialEffectTriggers :=
              removeFirstMatch a.trigger m.specialEffectTriggers } :: rest_m } := by
    simp [remove_time_trigger, hc, htt_at]
  have htt_time : hasTime a.trigger = true :=
    (List.mem_filter.1 (List.getElem?_mem htt_at)).2
  have hno : ∀ j, j < a.trigger_index → ∀ x,
      (m.specialEffectTriggers.filter hasTime)[j]? = some x →
        matchesTrigger a.trigger x = false := by
    intro j hj x hx
    by_contra hmx
    rw [Bool.not_eq_false] at hmx
    simp only [matchesTrigger, Bool.and_eq_true, beq_iff_eq] at hmx
    have hmk' : mkAlarm? c.specialEffectLibrary j x =
        some { a with trigger := x, trigger_index := j } := by
      refine mkAlarm?_congr ?_ ?_ hmk
      · rw [← htrig]; exact hmx.1
      · rw [← htrig]; exact hmx.2
    have hmem' : ({ a with trigger := x, trigger_index := j } : Alarm) ∈ alarms := by
      refine (@mem_loadAlarms c.specialEffectLibrary (get_time_triggers c) _).2
        ⟨j, x, ?_, hmk'⟩
      rw [hgtt]
      exact hx
    have hne := hdist _ hmem' _ hmem (by simp only [htidx]; omega)
    exact hne rfl
  have htimef : (removeFirstMatch a.trigger m.specialEffectTriggers).filter hasTime =
      (m.specialEffectTriggers.filter hasTime).eraseIdx a.trigger_index := by
    rw [removeFirstMatch_filter_time _ htt_time]
    exact removeFirstMatch_eraseIdx _ _ _ htt_at hno
  have hnonef : (removeFirstMatch a.trigger m.specialEffectTriggers).filter (fun t => !hasTime t) =
      m.specialEffectTriggers.filter (fun t => !hasTime t) :=
    removeFirstMatch_filter_nonTime _ htt_time _
  have hfind : ∃ q : Nat,
      (type6Positions c.specialEffectLibrary)[a.type6_index.toNat]? = some q ∧
        (q : Int) = a.actual_index := by
    rw [actualToType6] at ht6eq
    rcases hfi : (type6Positions c.specialEffectLibrary).findIdx?
        (fun q : Nat => (q : Int) == a.actual_index) with - | k'
    · rw [hfi] at ht6eq
      simp at ht6eq
      omega
    · rw [hfi] at ht6eq
      dsimp only at ht6eq
      obtain ⟨hkl', hpk', -⟩ := List.findIdx?_eq_some_iff_getElem.1 hfi
      refine ⟨(type6Positions c.specialEffectLibrary)[k'], ?_, by simpa using hpk'⟩
      rw [ht6eq, Int.toNat_ofNat, List.getElem?_eq_getElem hkl']
  obtain ⟨q, hq, hq'⟩ := hfind
  have hlibrary : (remove_type6_effect (remove_time_trigger c a.trigger_index)
        a.type6_index).specialEffectLibrary =
      c.specialEffectLibrary.eraseIdx a.actual_index.toNat := by
    simp only [remove_type6_effect, remove_time_trigger_library]
    rw [if_pos ⟨ht6nn, by rw [type6Positions_length]; exact ht6lt⟩]
    dsimp only
    rw [List.getD_eq_getElem?_getD, hq]
    simp only [Option.getD_some]
    congr 1
    omega
  have hmeshes : (deleteAlarm c alarms i).meshes =
      { m with specialEffectTriggers :=
          removeFirstMatch a.trigger m.specialEffectTriggers } :: rest_m := by
    rw [hdel, remove_type6_effect_meshes, hrm]
  refine ⟨?_, ?_, ?_⟩
  · rw [get_time_triggers_eq, triggersOf_eq hmeshes, htimef, hgtt]
  · rw [triggersOf_eq hmeshes, hnonef, triggersOf_eq hc]
  · rw [hdel]
    exact hlibrary

/-- Witness for the amended C4 theorem: delete alarm 1 of `exCfg`. -/
theorem delete_removes_trigger_by_value_then_library_witness :
    get_time_triggers (deleteAlarm exCfg (loadFromConfig exCfg) 1) =
        (get_time_triggers exCfg).eraseIdx 1 ∧
      (deleteAlarm exCfg (loadFromConfig exCfg) 1).specialEffectLibrary =
        exCfg.specialEffectLibrary.eraseIdx 1 := by
  obtain ⟨h1, -, h3⟩ :=
    delete_removes_trigger_by_value_then_library exCfg 1 (by decide) (by decide)
  constructor
  · rw [h1]
    decide
  · rw [h3]
    decide
